import Mathlib

/-!
Shallow embedding of the `rsp` (RiSCAN Pro) crate's core geometry and
project model, together with proofs of the specified properties.

Sources embedded:
- `src/scan_position.rs`: `ScanPosition` with `pop`/`sop` 4x4 transforms,
  `socs_to_glcs`, the setters and `add_scan`.
- `src/project.rs`: `Project` (map of scan positions keyed by name),
  `ScanPosition` (map of images), the `color` first-hit lookup loop.
- `src/lib.rs`: scalar and error scaffolding.

Machine `f64` scalars are embedded as exact rationals; the claims treated
here are structural (which chain of transforms is applied, which branch
returns `None`), not about rounding. Rust `HashMap` is embedded as an
association list with insert-replaces-existing-key semantics, which is the
observable contract of `HashMap` construction and `get`.
-/

/-- The 4x4 matrix type used for POP and SOP transforms (nalgebra `Matrix4<f64>`). -/
abbrev Matrix4 := Matrix (Fin 4) (Fin 4) ℚ

/-- The 4-component homogeneous vector type (nalgebra `Vector4<f64>`). -/
abbrev Vector4 := Fin 4 → ℚ

/-- Constructor mirroring `Vector::new(x, y, z, w)`. -/
def Vector4.new (x y z w : ℚ) : Vector4 := ![x, y, z, w]

/-- Constructor mirroring `Matrix::new_identity(4)`. -/
def Matrix4.new_identity (_n : Nat) : Matrix4 := 1

/-- Computable nonsingular inverse of a 4x4 matrix; agrees with Mathlib's
`Inv.inv` on matrices over a field (see `Matrix4.inv_eq`). -/
def Matrix4.inv (A : Matrix4) : Matrix4 := A.det⁻¹ • A.adjugate

/-- Modelled from the spec: a `Scan` is a named point-cloud capture carrying
no geometry of its own (spec section 3); the `Scan` type is referenced but not
defined under `src/` (it lives in a module absent from the sources). Only its
name is used by the embedded code (`add_scan` keys scans by `scan.name()`). -/
structure Scan where
  name : String
deriving DecidableEq, Repr

/-- Association-list embedding of `std::collections::HashMap` insertion:
inserting an existing key replaces its value, otherwise the pair is appended. -/
def hmInsert {α : Type} : List (String × α) → String → α → List (String × α)
  | [], k, v => [(k, v)]
  | e :: rest, k, v => if e.1 = k then (k, v) :: rest else e :: hmInsert rest k v

/-- Association-list embedding of `HashMap::get`. -/
def hmGet {α : Type} (m : List (String × α)) (k : String) : Option α :=
  (m.find? (fun e => e.1 = k)).map (fun e => e.2)

/-- `ScanPosition` from `src/scan_position.rs`: a name, the project transform
`pop`, a map of scans, and the scan-position transform `sop`. -/
structure ScanPosition where
  name : String
  pop : Matrix4
  scans : List (String × Scan)
  sop : Matrix4

/-- `ScanPosition::new`: empty name, identity POP and SOP, no scans. -/
def ScanPosition.new : ScanPosition :=
  { name := ""
    pop := Matrix4.new_identity 4
    scans := []
    sop := Matrix4.new_identity 4 }

/-- `ScanPosition::set_name` (`self.name = name.to_string()`). -/
def ScanPosition.set_name (s : ScanPosition) (name : String) : ScanPosition :=
  { s with name := name }

/-- `ScanPosition::set_sop` (`self.sop = sop`). -/
def ScanPosition.set_sop (s : ScanPosition) (sop : Matrix4) : ScanPosition :=
  { s with sop := sop }

/-- `ScanPosition::set_pop` (`self.pop = pop`). -/
def ScanPosition.set_pop (s : ScanPosition) (pop : Matrix4) : ScanPosition :=
  { s with pop := pop }

/-- `ScanPosition::socs_to_glcs`: `let glcs = self.pop * self.sop * Vector::new(x, y, z, 1.);
(glcs.x, glcs.y, glcs.z)`. -/
def ScanPosition.socs_to_glcs (s : ScanPosition) (p : ℚ × ℚ × ℚ) : ℚ × ℚ × ℚ :=
  let glcs := (s.pop * s.sop).mulVec (Vector4.new p.1 p.2.1 p.2.2 1)
  (glcs 0, glcs 1, glcs 2)

/-- `ScanPosition::scan`: `self.scans.get(name)`. -/
def ScanPosition.scan (s : ScanPosition) (name : String) : Option Scan :=
  hmGet s.scans name

/-- `ScanPosition::add_scan`: `self.scans.insert(scan.name().to_string(), scan)`. -/
def ScanPosition.add_scan (s : ScanPosition) (scan : Scan) : ScanPosition :=
  { s with scans := hmInsert s.scans scan.name scan }

/-- Modelled from the spec: `global_to_scan_local` (spec section 4.3) inverts
the forward chain `global = project_transform ∘ scan_position_transform ∘ scan_local`,
which the source realises as `pop * sop * (x, y, z, 1)`; no inverse-direction
conversion exists under `src/`. -/
def global_to_scan_local (s : ScanPosition) (p : ℚ × ℚ × ℚ) : ℚ × ℚ × ℚ :=
  let socs := (Matrix4.inv (s.pop * s.sop)).mulVec (Vector4.new p.1 p.2.1 p.2.2 1)
  (socs 0, socs 1, socs 2)

/-- Modelled from the spec: `scan_local_to_global` "is the forward direction"
(spec section 4.3), i.e. exactly the source's `socs_to_glcs`. -/
def scan_local_to_global (s : ScanPosition) (p : ℚ × ℚ × ℚ) : ℚ × ℚ × ℚ :=
  s.socs_to_glcs p

/-- A transform is affine when its last row is `(0, 0, 0, 1)`, as is the case
for the rigid (rotation + translation) transforms of spec sections 3 and 6. -/
def Matrix4.IsAffine (A : Matrix4) : Prop :=
  A 3 = ![0, 0, 0, 1]

/-- Modelled from the spec: `CameraModel` intrinsics (spec sections 3 and 6) —
focal lengths, principal point, raster dimensions and Brown-Conrady distortion
coefficients in the fixed order k1, k2, k3, p1, p2. No camera-model type exists
under `src/` (the `image` module is declared in `lib.rs` but its file is absent). -/
structure CameraModel where
  fx : ℚ
  fy : ℚ
  cx : ℚ
  cy : ℚ
  width : ℚ
  height : ℚ
  k1 : ℚ
  k2 : ℚ
  k3 : ℚ
  p1 : ℚ
  p2 : ℚ
deriving DecidableEq, Repr

/-- Modelled from the spec: `CameraModel.project` (spec section 4.2) — fail when
`z <= 0`, normalize by `z`, apply the Brown-Conrady radial + tangential
distortion, convert to pixel space, fail when outside `[0, width) x [0, height)`.
The source's `Image::project` is called at `src/project.rs` line 161 but is not
defined anywhere under `src/`. -/
def CameraModel.project (cm : CameraModel) (p : ℚ × ℚ × ℚ) : Option (ℚ × ℚ) :=
  if p.2.2 ≤ 0 then none
  else
    let xn := p.1 / p.2.2
    let yn := p.2.1 / p.2.2
    let r2 := xn ^ 2 + yn ^ 2
    let radial := 1 + cm.k1 * r2 + cm.k2 * r2 ^ 2 + cm.k3 * r2 ^ 3
    let xd := xn * radial + 2 * cm.p1 * xn * yn + cm.p2 * (r2 + 2 * xn ^ 2)
    let yd := yn * radial + cm.p1 * (r2 + 2 * yn ^ 2) + 2 * cm.p2 * xn * yn
    let u := cm.fx * xd + cm.cx
    let v := cm.fy * yd + cm.cy
    if 0 ≤ u ∧ u < cm.width ∧ 0 ≤ v ∧ v < cm.height then some (u, v) else none

/-- `Image` from `src/project.rs` (name), extended per the spec: a mounting
transform and a camera model (spec section 3 — both absent from `src/`, where
`Image::project` is referenced but undefined), and the external raster-sampling
collaborator `sample(pixel) -> Option<Value>` of spec section 6. -/
structure Image where
  name : String
  mount : Matrix4
  camera : CameraModel
  sample : ℚ × ℚ → Option ℚ

/-- Modelled from the spec: the per-image projection (spec section 4.4 steps
2-3) — move the scanner-local point into the camera frame by the mounting
transform, then project through the camera model. Realises the undefined
`Image::project` called at `src/project.rs` line 161. -/
def Image.project (img : Image) (x y z : ℚ) : Option (ℚ × ℚ) :=
  let cam := img.mount.mulVec (Vector4.new x y z 1)
  img.camera.project (cam 0, cam 1, cam 2)

/-- `Image::color` from `src/project.rs` lines 160-163: project the point to a
pixel, then (modelled from the spec, the body past `self.project` being
`unimplemented!()`) delegate the pixel read to the raster-sampling collaborator. -/
def Image.color (img : Image) (x y z : ℚ) : Option ℚ :=
  (img.project x y z).bind (fun uv => img.sample uv)

/-- `ScanPosition` from `src/project.rs`: a name and the images taken there.
Modelled from the spec: the images are kept as a list in configuration load
order (spec section 4.5 — the `images()` accessor the lookup loop iterates is
`unimplemented!()` under `src/`, and the spec fixes insertion order). -/
structure Project.ScanPosition where
  name : String
  images : List Image

/-- The loop body of `ScanPosition::color` from `src/project.rs` lines 127-135:
`for image in self.images() { let color = image.color(x, y, z);
if color.is_some() { return color; } } None`. -/
def colorLoop : List Image → ℚ → ℚ → ℚ → Option ℚ
  | [], _, _, _ => none
  | img :: rest, x, y, z =>
    let c := img.color x y z
    if c.isSome then c else colorLoop rest x y z

/-- `ScanPosition::color` from `src/project.rs`. -/
def Project.ScanPosition.color (sp : Project.ScanPosition) (x y z : ℚ) : Option ℚ :=
  colorLoop sp.images x y z

/-- `ScanPosition::image`: `self.images.get(name)` (lookup by unique image name). -/
def Project.ScanPosition.image (sp : Project.ScanPosition) (name : String) : Option Image :=
  sp.images.find? (fun img => img.name = name)

/-- `Project` from `src/project.rs`: scan positions keyed by name. -/
structure Project where
  scan_positions : List (String × Project.ScanPosition)

/-- `Project::scan_position`: `self.scan_positions.get(name)`. -/
def Project.scan_position (p : Project) (name : String) : Option Project.ScanPosition :=
  hmGet p.scan_positions name

/-- The map-building step of `Project::from_path` (`src/project.rs` lines 35-44)
once parsing has produced the scan positions: collect `(sp.name(), sp)` pairs
into a `HashMap`. -/
def Project.from_config (cfg : List Project.ScanPosition) : Project :=
  { scan_positions := cfg.foldl (fun m sp => hmInsert m sp.name sp) [] }

/-- `Project::image` from `src/project.rs` lines 69-71. -/
def Project.image (p : Project) (scan_position name : String) : Option Image :=
  (p.scan_position scan_position).bind (fun sp => sp.image name)

/-- Modelled from the spec: the construction-time error kinds of spec section 7
that must abort loading; no such variants exist in the `Error` enum under
`src/` (the camera-calibration handling is absent from the sources). -/
inductive LoadError where
  | DuplicateCamera
  | ConfigurationInvalid
deriving DecidableEq, Repr

/-- Modelled from the spec: a parsed project configuration — the camera
calibrations supplied by the file and the scan positions (spec sections 3, 6). -/
structure ProjectConfig where
  cameras : List CameraModel
  scan_positions : List Project.ScanPosition

/-- Modelled from the spec: project construction accepts at most one camera
calibration — "more than one camera calibration supplied where the project
model permits only one; fatal at construction" (spec section 7, DuplicateCamera). -/
def loadProject (cfg : ProjectConfig) : Except LoadError (Project × Option CameraModel) :=
  if 1 < cfg.cameras.length then .error .DuplicateCamera
  else .ok (Project.from_config cfg.scan_positions, cfg.cameras.head?)

/-- Modelled from the spec: `ImageProjector.project_point` (spec section 4.4) —
global point to scanner-local frame, then through the image's mounting
transform and camera model. -/
def project_point (p : ℚ × ℚ × ℚ) (s : ScanPosition) (img : Image) : Option (ℚ × ℚ) :=
  let socs := global_to_scan_local s p
  img.project socs.1 socs.2.1 socs.2.2

/-- A concrete pinhole camera used by concrete instantiations below. -/
def camW : CameraModel :=
  { fx := 1000, fy := 1000, cx := 500, cy := 500, width := 1000, height := 1000
    k1 := 0, k2 := 0, k3 := 0, p1 := 0, p2 := 0 }

/-- A concrete image with identity mounting transform and a trivial sampler. -/
def imgW : Image :=
  { name := "SP01 - Image001", mount := Matrix4.new_identity 4, camera := camW
    sample := fun _ => some 22 }

/-- A concrete scan position of the `src/project.rs` kind. -/
def spW : Project.ScanPosition :=
  { name := "SP01", images := [imgW] }

/- ------------------------------------------------------------------ -/
/- Helper lemmas                                                      -/
/- ------------------------------------------------------------------ -/

theorem Matrix4.inv_eq (A : Matrix4) : Matrix4.inv A = A⁻¹ := by
  rw [Matrix.inv_def, Ring.inverse_eq_inv, Matrix4.inv]

theorem hmGet_hmInsert {α : Type} (m : List (String × α)) (k k2 : String) (v : α) :
    hmGet (hmInsert m k v) k2 = if k2 = k then some v else hmGet m k2 := by
  induction m with
  | nil =>
    by_cases h : k2 = k <;> simp [hmInsert, hmGet, h, Eq.comm]
  | cons e rest ih =>
    by_cases he : e.1 = k
    · by_cases h : k2 = k <;> simp [hmInsert, hmGet, he, h, Eq.comm] <;> simp [he, h]
    · by_cases h : k2 = k
      · subst h
        simp [hmInsert, hmGet, he, List.find?_cons] at ih ⊢
        simp [he, ih]
      · by_cases h2 : e.1 = k2 <;> simp [hmInsert, hmGet, he, h, h2] <;> simp [hmGet, h] at ih <;>
          exact ih

theorem hmGet_hmInsert_self {α : Type} (m : List (String × α)) (k : String) (v : α) :
    hmGet (hmInsert m k v) k = some v := by
  rw [hmGet_hmInsert]
  simp

theorem colorLoop_eq_none (l : List Image) (x y z : ℚ) :
    colorLoop l x y z = none ↔ ∀ img ∈ l, img.color x y z = none := by
  induction l with
  | nil => simp [colorLoop]
  | cons img rest ih =>
    cases h : img.color x y z with
    | some c => simp [colorLoop, h]
    | none => simp [colorLoop, h, ih]

theorem colorLoop_eq_some (l : List Image) (x y z c : ℚ) :
    colorLoop l x y z = some c ↔
      ∃ l1 img l2, l = l1 ++ img :: l2 ∧ (∀ j ∈ l1, j.color x y z = none) ∧
        img.color x y z = some c := by
  induction l with
  | nil =>
    constructor
    · intro hc
      simp [colorLoop] at hc
    · rintro ⟨l1, im, l2, hsplit, -, -⟩
      have him : im ∈ ([] : List Image) :=
        hsplit ▸ List.mem_append_right l1 (List.mem_cons_self im l2)
      simp at him
  | cons img rest ih =>
    cases h : img.color x y z with
    | some c0 =>
      simp only [colorLoop, h, Option.isSome_some, if_true]
      constructor
      · intro hc
        exact ⟨[], img, rest, rfl, by simp, h.trans hc⟩
      · rintro ⟨l1, im, l2, hsplit, hnone, hsome⟩
        cases l1 with
        | nil =>
          simp only [List.nil_append, List.cons.injEq] at hsplit
          rw [hsplit.1] at h
          rw [h] at hsome
          exact hsome
        | cons j t =>
          simp only [List.cons_append, List.cons.injEq] at hsplit
          have hj := hnone j (List.mem_cons_self j t)
          rw [hsplit.1, hj] at h
          exact absurd h (by simp)
    | none =>
      simp only [colorLoop, h, Option.isSome_none, Bool.false_eq_true, if_false]
      rw [ih]
      constructor
      · rintro ⟨l1, im, l2, hsplit, hnone, hsome⟩
        refine ⟨img :: l1, im, l2, by rw [hsplit, List.cons_append], ?_, hsome⟩
        intro j hj
        rcases List.mem_cons.mp hj with rfl | hj2
        · exact h
        · exact hnone j hj2
      · rintro ⟨l1, im, l2, hsplit, hnone, hsome⟩
        cases l1 with
        | nil =>
          simp only [List.nil_append, List.cons.injEq] at hsplit
          rw [hsplit.1] at h
          rw [h] at hsome
          exact absurd hsome (by simp)
        | cons j t =>
          simp only [List.cons_append, List.cons.injEq] at hsplit
          refine ⟨t, im, l2, hsplit.2, ?_, hsome⟩
          intro j2 hj2
          exact hnone j2 (List.mem_cons_of_mem j hj2)

theorem hmInsert_keys {α : Type} (m : List (String × α)) (k : String) (v : α) :
    (hmInsert m k v).map Prod.fst =
      if k ∈ m.map Prod.fst then m.map Prod.fst else m.map Prod.fst ++ [k] := by
  induction m with
  | nil => simp [hmInsert]
  | cons e rest ih =>
    by_cases he : e.1 = k
    · simp [hmInsert, he]
    · simp only [hmInsert, he, if_false, List.map_cons, ih]
      have : (k ∈ e.1 :: rest.map Prod.fst) ↔ k ∈ rest.map Prod.fst := by
        simp [Ne.symm he]
      by_cases hk : k ∈ rest.map Prod.fst <;> simp [hk, this]

theorem hmInsert_keys_nodup {α : Type} (m : List (String × α)) (k : String) (v : α)
    (h : (m.map Prod.fst).Nodup) : ((hmInsert m k v).map Prod.fst).Nodup := by
  rw [hmInsert_keys]
  by_cases hk : k ∈ m.map Prod.fst
  · simp [hk, h]
  · simp only [hk, if_false]
    exact List.Nodup.append h (List.nodup_singleton k) (by simpa using hk)

theorem hmInsert_mem {α : Type} (m : List (String × α)) (k : String) (v : α) :
    ∀ e ∈ hmInsert m k v, e = (k, v) ∨ e ∈ m := by
  induction m with
  | nil => simp [hmInsert]
  | cons f rest ih =>
    intro e he
    by_cases hf : f.1 = k
    · simp only [hmInsert, hf, if_true, List.mem_cons] at he
      rcases he with rfl | he
      · exact Or.inl rfl
      · exact Or.inr (List.mem_cons_of_mem f he)
    · simp only [hmInsert, hf, if_false, List.mem_cons] at he
      rcases he with rfl | he
      · exact Or.inr (List.mem_cons_self e rest)
      · rcases ih e he with h1 | h1
        · exact Or.inl h1
        · exact Or.inr (List.mem_cons_of_mem f h1)

theorem hmGet_of_mem {α : Type} (m : List (String × α)) (e : String × α)
    (hn : (m.map Prod.fst).Nodup) (he : e ∈ m) : hmGet m e.1 = some e.2 := by
  induction m with
  | nil => simp at he
  | cons f rest ih =>
    rcases List.mem_cons.mp he with rfl | he2
    · simp [hmGet]
    · have hf : f.1 ≠ e.1 := by
        intro hcontra
        have : e.1 ∈ rest.map Prod.fst := List.mem_map_of_mem Prod.fst he2
        rw [← hcontra] at this
        exact (List.nodup_cons.mp (by simpa using hn)).1 this
      have := ih (List.nodup_cons.mp (by simpa using hn)).2 he2
      simpa [hmGet, hf] using this

theorem IsAffine.mul {A B : Matrix4} (hA : Matrix4.IsAffine A) (hB : Matrix4.IsAffine B) :
    Matrix4.IsAffine (A * B) := by
  funext j
  have ha0 : A 3 0 = 0 := by rw [hA]; rfl
  have ha1 : A 3 1 = 0 := by rw [hA]; rfl
  have ha2 : A 3 2 = 0 := by rw [hA]; rfl
  have ha3 : A 3 3 = 1 := by rw [hA]; rfl
  have hb : B 3 j = ![(0 : ℚ), 0, 0, 1] j := by rw [hB]
  show (A * B) 3 j = ![(0 : ℚ), 0, 0, 1] j
  rw [Matrix.mul_apply, Fin.sum_univ_four, ha0, ha1, ha2, ha3, ← hb]
  ring

theorem IsAffine.inv {A : Matrix4} (hA : Matrix4.IsAffine A) (hdet : IsUnit A.det) :
    Matrix4.IsAffine (Matrix4.inv A) := by
  have hmul : A * Matrix4.inv A = 1 := by
    rw [Matrix4.inv_eq]
    exact Matrix.mul_nonsing_inv A hdet
  funext j
  have ha0 : A 3 0 = 0 := by rw [hA]; rfl
  have ha1 : A 3 1 = 0 := by rw [hA]; rfl
  have ha2 : A 3 2 = 0 := by rw [hA]; rfl
  have ha3 : A 3 3 = 1 := by rw [hA]; rfl
  have hrow := congrFun (congrFun hmul 3) j
  rw [Matrix.mul_apply, Fin.sum_univ_four, ha0, ha1, ha2, ha3] at hrow
  show Matrix4.inv A 3 j = ![(0 : ℚ), 0, 0, 1] j
  have hone : (1 : Matrix4) 3 j = ![(0 : ℚ), 0, 0, 1] j := by
    fin_cases j <;> simp [Matrix.one_apply]
  rw [← hone, ← hrow]
  ring

theorem IsAffine.mulVec_last {A : Matrix4} (hA : Matrix4.IsAffine A) (x y z : ℚ) :
    A.mulVec (Vector4.new x y z 1) 3 = 1 := by
  have ha0 : A 3 0 = 0 := by rw [hA]; rfl
  have ha1 : A 3 1 = 0 := by rw [hA]; rfl
  have ha2 : A 3 2 = 0 := by rw [hA]; rfl
  have ha3 : A 3 3 = 1 := by rw [hA]; rfl
  show Finset.sum Finset.univ (fun j => A 3 j * Vector4.new x y z 1 j) = 1
  rw [Fin.sum_univ_four, ha0, ha1, ha2, ha3]
  show 0 * x + 0 * y + 0 * z + 1 * 1 = 1
  ring

/- ------------------------------------------------------------------ -/
/- Claim theorems                                                     -/
/- ------------------------------------------------------------------ -/

/-- C1: for every scan position and every point `(x, y, z)`, `socs_to_glcs`
applies the forward chain — `pop` (project transform) composed with `sop`
(scan-position transform) — to the homogeneous point `(x, y, z, 1)`: the result
is the first three components of `pop * (sop * (x, y, z, 1))`. -/
theorem socs_to_glcs_forward_chain (s : ScanPosition) (x y z : ℚ) :
    s.socs_to_glcs (x, y, z) =
      (s.pop.mulVec (s.sop.mulVec (Vector4.new x y z 1)) 0,
       s.pop.mulVec (s.sop.mulVec (Vector4.new x y z 1)) 1,
       s.pop.mulVec (s.sop.mulVec (Vector4.new x y z 1)) 2) := by
  simp [ScanPosition.socs_to_glcs, Matrix.mulVec_mulVec]

/-- C10: a freshly constructed `ScanPosition` (via `ScanPosition::new`) has
both `pop` and `sop` equal to the 4x4 identity, and `socs_to_glcs` on it
returns every point `(x, y, z)` unchanged. -/
theorem new_scan_position_identity (x y z : ℚ) :
    ScanPosition.new.pop = Matrix4.new_identity 4 ∧
    ScanPosition.new.sop = Matrix4.new_identity 4 ∧
    ScanPosition.new.socs_to_glcs (x, y, z) = (x, y, z) := by
  refine ⟨rfl, rfl, ?_⟩
  show ((1 * 1 : Matrix4).mulVec (Vector4.new x y z 1) 0,
        (1 * 1 : Matrix4).mulVec (Vector4.new x y z 1) 1,
        (1 * 1 : Matrix4).mulVec (Vector4.new x y z 1) 2) = (x, y, z)
  rw [one_mul, Matrix.one_mulVec]
  rfl

/-- C9: the pure projection and frame-conversion operations are deterministic —
two calls of `socs_to_glcs` (or of `project_point`) on equal inputs return
equal outputs. -/
theorem pure_ops_deterministic (s t : ScanPosition) (p q : ℚ × ℚ × ℚ) (i j : Image)
    (hst : s = t) (hpq : p = q) (hij : i = j) :
    s.socs_to_glcs p = t.socs_to_glcs q ∧ project_point p s i = project_point q t j := by
  subst hst
  subst hpq
  subst hij
  exact ⟨rfl, rfl⟩

/-- Closed instantiation of `pure_ops_deterministic` at a concrete scan
position, point and image. -/
theorem pure_ops_deterministic_witness :
    ScanPosition.new.socs_to_glcs (1, 2, 3) = ScanPosition.new.socs_to_glcs (1, 2, 3) ∧
    project_point (1, 2, 3) ScanPosition.new imgW = project_point (1, 2, 3) ScanPosition.new imgW :=
  pure_ops_deterministic ScanPosition.new ScanPosition.new (1, 2, 3) (1, 2, 3) imgW imgW
    rfl rfl rfl

/-- C4: for every camera-local point with `z <= 0` the camera projection
returns `None` whatever the distortion coefficients are, and whenever the
projection returns a pixel the point was strictly in front of the camera. -/
theorem camera_project_front_guard (cm : CameraModel) (p : ℚ × ℚ × ℚ) :
    (p.2.2 ≤ 0 → cm.project p = none) ∧
    (∀ px, cm.project p = some px → 0 < p.2.2) := by
  constructor
  · intro h
    simp [CameraModel.project, h]
  · intro px h
    by_contra hz
    push_neg at hz
    simp [CameraModel.project, hz] at h

/-- Closed instantiation of `camera_project_front_guard`: the spec's end-to-end
scenario point at camera-local `z = -1` yields `None`. -/
theorem camera_project_front_guard_witness : camW.project (1/10, 1/20, -1) = none :=
  (camera_project_front_guard camW (1/10, 1/20, -1)).1 (by norm_num)

/-- C5 counterexample: `ScanPosition` is not immutable once constructed — the
public operation `set_sop`, applied to a freshly constructed scan position and
the constant-2 matrix, changes the `sop` field. -/
theorem immutability_counterexample :
    ¬ ((ScanPosition.new.set_sop (Matrix.of fun _ _ => (2 : ℚ))).sop = ScanPosition.new.sop) := by
  intro h
  have h00 := congrFun (congrFun h 0) 0
  simp [ScanPosition.set_sop, ScanPosition.new, Matrix4.new_identity, Matrix.of_apply,
    Matrix.one_apply] at h00

/-- C5 amended: the lookup queries are pure functions that leave every entity
untouched (in this embedding they do not even receive the ability to produce an
updated entity), but `ScanPosition` is mutable after construction: the public
setters `set_name`, `set_sop` and `set_pop` each overwrite their field (leaving
the others intact), and `add_scan` inserts into the scan map. -/
theorem setters_mutate_lookups_pure (s : ScanPosition) (n : String) (m m2 : Matrix4) (sc : Scan) :
    (s.set_name n).name = n ∧
    (s.set_sop m).sop = m ∧
    (s.set_sop m).pop = s.pop ∧
    (s.set_sop m).name = s.name ∧
    (s.set_sop m).scans = s.scans ∧
    (s.set_pop m2).pop = m2 ∧
    (s.set_pop m2).sop = s.sop ∧
    (s.add_scan sc).scan sc.name = some sc := by
  refine ⟨rfl, rfl, rfl, rfl, rfl, rfl, rfl, ?_⟩
  show hmGet (hmInsert s.scans sc.name sc) sc.name = some sc
  exact hmGet_hmInsert_self s.scans sc.name sc

/-- C6: looking up a scan-position name in a constructed `Project` is total —
it returns `None` exactly when no scan position of the configuration bears that
name, and returns `Some` exactly when one does; no error and no process
failure is possible. -/
theorem scan_position_not_found_total (cfg : List Project.ScanPosition) (nm : String) :
    ((Project.from_config cfg).scan_position nm = none ↔ ∀ sp ∈ cfg, sp.name ≠ nm) ∧
    ((∃ sp, (Project.from_config cfg).scan_position nm = some sp) ↔
      ∃ sp ∈ cfg, sp.name = nm) := by
  have key : ∀ (m : List (String × Project.ScanPosition)),
      hmGet (cfg.foldl (fun acc sp => hmInsert acc sp.name sp) m) nm = none ↔
        (hmGet m nm = none ∧ ∀ sp ∈ cfg, sp.name ≠ nm) := by
    induction cfg with
    | nil => simp
    | cons sp rest ih =>
      intro m
      simp only [List.foldl_cons, ih, hmGet_hmInsert, List.mem_cons]
      by_cases h : nm = sp.name
      · constructor
        · rintro ⟨h1, -⟩
          rw [h, if_pos rfl] at h1
          cases h1
        · rintro ⟨-, h2⟩
          exact absurd h.symm (h2 sp (Or.inl rfl))
      · simp only [h, if_false]
        constructor
        · rintro ⟨h1, h2⟩
          refine ⟨h1, fun q hq => ?_⟩
          rcases hq with rfl | hq2
          · exact fun hc => h hc.symm
          · exact h2 q hq2
        · rintro ⟨h1, h2⟩
          exact ⟨h1, fun q hq => h2 q (Or.inr hq)⟩
  have hnone : (Project.from_config cfg).scan_position nm = none ↔
      ∀ sp ∈ cfg, sp.name ≠ nm := by
    show hmGet (cfg.foldl (fun acc sp => hmInsert acc sp.name sp) []) nm = none ↔ _
    rw [key []]
    simp [hmGet]
  refine ⟨hnone, ?_⟩
  constructor
  · rintro ⟨sp, hsp⟩
    by_contra hc
    push_neg at hc
    have hl : (Project.from_config cfg).scan_position nm = none :=
      hnone.mpr (fun q hq => hc q hq)
    rw [hl] at hsp
    cases hsp
  · intro hex
    by_contra hc
    push_neg at hc
    have hl : (Project.from_config cfg).scan_position nm = none := by
      cases hll : (Project.from_config cfg).scan_position nm with
      | none => rfl
      | some v => exact absurd hll (hc v)
    obtain ⟨sp, hsp, hname⟩ := hex
    exact (hnone.mp hl sp hsp) hname

/-- C8: whenever a project configuration supplies more than one camera
calibration, construction fails with the `DuplicateCamera` error and can never
succeed. -/
theorem duplicate_camera_fails_construction (cfg : ProjectConfig)
    (h : 1 < cfg.cameras.length) :
    loadProject cfg = .error .DuplicateCamera ∧ ∀ out, loadProject cfg ≠ .ok out := by
  constructor
  · simp [loadProject, h]
  · intro out
    simp [loadProject, h]

/-- Closed instantiation of `duplicate_camera_fails_construction`: a
configuration with two camera calibrations fails to load. -/
theorem duplicate_camera_fails_construction_witness :
    loadProject { cameras := [camW, camW], scan_positions := [] } =
      .error .DuplicateCamera :=
  (duplicate_camera_fails_construction { cameras := [camW, camW], scan_positions := [] }
    (by simp)).1

/-- C7: in every constructed `Project`, scan-position names are unique keys —
the names of the stored scan positions are pairwise distinct, and looking up
the name of any stored scan position returns exactly that scan position. -/
theorem scan_position_names_unique (cfg : List Project.ScanPosition) :
    (((Project.from_config cfg).scan_positions.map (fun e => e.2.name)).Nodup) ∧
    ∀ e ∈ (Project.from_config cfg).scan_positions,
      (Project.from_config cfg).scan_position e.2.name = some e.2 := by
  have key : ∀ (m : List (String × Project.ScanPosition)),
      (m.map Prod.fst).Nodup → (∀ e ∈ m, e.1 = e.2.name) →
        (((cfg.foldl (fun acc sp => hmInsert acc sp.name sp) m).map Prod.fst).Nodup ∧
          ∀ e ∈ cfg.foldl (fun acc sp => hmInsert acc sp.name sp) m, e.1 = e.2.name) := by
    induction cfg with
    | nil => exact fun m h1 h2 => ⟨h1, h2⟩
    | cons sp rest ih =>
      intro m h1 h2
      simp only [List.foldl_cons]
      refine ih (hmInsert m sp.name sp) (hmInsert_keys_nodup m sp.name sp h1) ?_
      intro e he
      rcases hmInsert_mem m sp.name sp e he with rfl | he2
      · rfl
      · exact h2 e he2
  obtain ⟨hkeys, hnames⟩ := key [] (by simp) (by simp)
  have hmap : (Project.from_config cfg).scan_positions.map (fun e => e.2.name) =
      (Project.from_config cfg).scan_positions.map Prod.fst := by
    refine (List.map_congr_left ?_).symm
    intro e he
    exact hnames e he
  constructor
  · rw [hmap]
    exact hkeys
  · intro e he
    have := hmGet_of_mem (Project.from_config cfg).scan_positions e hkeys he
    rw [hnames e he] at this
    exact this

/-- Closed instantiation of `scan_position_names_unique`: the one-element
configuration `[spW]` stores `spW` under its own name `"SP01"` and looking that
name up returns it. -/
theorem scan_position_names_unique_witness :
    (Project.from_config [spW]).scan_position "SP01" = some spW :=
  (scan_position_names_unique [spW]).2 ("SP01", spW)
    (by simp [Project.from_config, hmInsert, spW])

/-- C3: for every scan position and query point, the color lookup walks the
scan position's images in their fixed load order: it returns `None` exactly
when no image yields a successful sample, and it returns `some c` exactly when
the image list splits as `l1 ++ img :: l2` with every image of `l1` failing and
`img` — the first success — sampling `c`. -/
theorem color_first_hit_policy (sp : Project.ScanPosition) (x y z : ℚ) :
    (sp.color x y z = none ↔ ∀ img ∈ sp.images, img.color x y z = none) ∧
    (∀ c, sp.color x y z = some c ↔
      ∃ l1 img l2, sp.images = l1 ++ img :: l2 ∧
        (∀ j ∈ l1, j.color x y z = none) ∧ img.color x y z = some c) :=
  ⟨colorLoop_eq_none sp.images x y z, fun c => colorLoop_eq_some sp.images x y z c⟩

/-- C2: for every point and every scan position whose transforms are affine and
whose composed transform is nonsingular (the well-formedness the spec demands
of configuration transforms), converting global to scan-local coordinates and
back returns the point — exactly, since the embedding computes with exact
rationals, hence in particular within any floating-point tolerance. -/
theorem glcs_roundtrip (s : ScanPosition) (p : ℚ × ℚ × ℚ)
    (hpop : Matrix4.IsAffine s.pop) (hsop : Matrix4.IsAffine s.sop)
    (hdet : IsUnit (s.pop * s.sop).det) :
    scan_local_to_global s (global_to_scan_local s p) = p := by
  obtain ⟨x, y, z⟩ := p
  have hBaff : Matrix4.IsAffine (s.pop * s.sop) := IsAffine.mul hpop hsop
  have hBinv : Matrix4.IsAffine (Matrix4.inv (s.pop * s.sop)) := IsAffine.inv hBaff hdet
  have hmul : (s.pop * s.sop) * Matrix4.inv (s.pop * s.sop) = 1 := by
    rw [Matrix4.inv_eq]
    exact Matrix.mul_nonsing_inv _ hdet
  set g := (Matrix4.inv (s.pop * s.sop)).mulVec (Vector4.new x y z 1) with hg
  have hg3 : g 3 = 1 := IsAffine.mulVec_last hBinv x y z
  have hrebuild : Vector4.new (g 0) (g 1) (g 2) 1 = g := by
    funext j
    fin_cases j
    · rfl
    · rfl
    · rfl
    · exact hg3.symm
  have hfull : (s.pop * s.sop).mulVec (Vector4.new (g 0) (g 1) (g 2) 1) =
      Vector4.new x y z 1 := by
    rw [hrebuild, hg, Matrix.mulVec_mulVec, hmul, Matrix.one_mulVec]
  show ((s.pop * s.sop).mulVec (Vector4.new (g 0) (g 1) (g 2) 1) 0,
        (s.pop * s.sop).mulVec (Vector4.new (g 0) (g 1) (g 2) 1) 1,
        (s.pop * s.sop).mulVec (Vector4.new (g 0) (g 1) (g 2) 1) 2) = (x, y, z)
  rw [hfull]
  rfl

/-- Closed instantiation of `glcs_roundtrip` at a freshly constructed scan
position (identity transforms) and the point `(5, 6, 7)`. -/
theorem glcs_roundtrip_witness :
    scan_local_to_global ScanPosition.new (global_to_scan_local ScanPosition.new (5, 6, 7)) =
      (5, 6, 7) :=
  glcs_roundtrip ScanPosition.new (5, 6, 7)
    (show ScanPosition.new.pop 3 = ![(0 : ℚ), 0, 0, 1] by funext j; fin_cases j <;> rfl)
    (show ScanPosition.new.sop 3 = ![(0 : ℚ), 0, 0, 1] by funext j; fin_cases j <;> rfl)
    (by simp [ScanPosition.new, Matrix4.new_identity])
